import Mathlib

/-!
# Verification of the `viber` concurrent file scanner

A shallow embedding, in Lean 4, of the directory-scanning subsystem of the
`viber` repository (`main.go`): the `FileScanner` data type, its constructor
`NewScanner`, and the walk-and-read operation `ScanForAI`, together with the
pieces of the Go standard library the scanner relies on
(`strings.TrimSpace`, `bufio.ScanLines`, `filepath.Ext`, `filepath.Match`).

Modelling conventions:
* Go strings are modelled as Lean `String`/`List Char`; the byte-level rune
  decoding of the Go originals coincides with the character-level model on
  all well-formed UTF-8 input, which is the only input the functions receive.
* The file system is modelled as a finite tree (`FSEntry`); a file's
  readability is an `Option String` content (`none` = `os.ReadFile` fails),
  a directory carries a `readErr` flag (`true` = `os.ReadDir` fails, which
  `filepath.WalkDir` reports to the callback as a walk-level error).
* The worker pool reads each dispatched path from the same unmodified tree,
  so the dispatch of a path carries the content the read will observe; the
  sink stage is the per-path read/skip step of the worker loop.
* Loops whose Go termination argument is "each iteration consumes at least
  one character" are written with an explicit fuel parameter that is always
  instantiated with `length + 1`, which the consumption invariant makes
  sufficient; running out of fuel is unreachable on those instantiations.
-/

/-! ## Go standard-library string helpers -/

/-- The whitespace predicate of Go's `unicode.IsSpace` restricted to the
Latin-1 range ('\t', '\n', '\v', '\f', '\r', ' ', U+0085, U+00A0); the
characters outside this range that Go also treats as white space do not
occur in the inputs the scanner handles and are omitted. -/
def goIsSpace (c : Char) : Bool :=
  c = ' ' || c = '\t' || c = '\n' || c = '\u000B' || c = '\u000C' || c = '\r' ||
  c = '\u0085' || c = '\u00A0'

/-- `strings.TrimSpace` on the character list of a string: drop white space
from both ends. -/
def trimSpace (l : List Char) : List Char :=
  ((l.dropWhile goIsSpace).reverse.dropWhile goIsSpace).reverse

/-- Split a character list at every newline, keeping all segments (including
a trailing empty segment when the list ends in a newline). -/
def splitNL : List Char → List (List Char)
  | [] => [[]]
  | c :: cs =>
    match splitNL cs with
    | [] => [[]]
    | l :: ls => if c = '\n' then [] :: l :: ls else (c :: l) :: ls

/-- `bufio.ScanLines` drops one terminal carriage return from each line. -/
def dropCR (l : List Char) : List Char :=
  if l.getLast? = some '\r' then l.dropLast else l

/-- The sequence of lines a `bufio.Scanner` with `bufio.ScanLines` yields on
the given input: newline-separated segments, no final empty token at EOF,
one terminal `'\r'` stripped per line. -/
def goLines (s : String) : List (List Char) :=
  let parts := splitNL s.data
  let parts := if parts.getLast? = some [] then parts.dropLast else parts
  parts.map dropCR

/-- `filepath.Ext`: scan the path backwards from the end; the extension is
the suffix beginning at the first `'.'` found before any path separator,
and is empty if a separator or the start of the string is reached first.
The argument is the reversed character list of the path; `acc` holds the
characters already passed over, in forward order. -/
def extRevScan (acc : List Char) : List Char → List Char
  | [] => []
  | c :: rest =>
    if c = '/' then []
    else if c = '.' then c :: acc
    else extRevScan (c :: acc) rest

/-- `filepath.Ext` on a path string. -/
def goExt (p : String) : String := ⟨extRevScan [] p.data.reverse⟩

/-- The base name of a path: everything after the last `'/'` (the whole
path when it has no separator). -/
def baseName (p : String) : String :=
  ⟨(p.data.reverse.takeWhile (fun c => !(c = '/'))).reverse⟩

/-- `filepath.Join` for already-clean directory and entry names, which is
how `filepath.WalkDir` builds the path of every entry below the root. -/
def joinPath (dir name : String) : String := dir ++ "/" ++ name

/-- The extension of a base name as the specification describes it: the
substring from the last `'.'` to the end of the name, inclusive of the dot,
and the empty string when the name contains no dot. -/
def specExtList : List Char → List Char
  | [] => []
  | c :: cs =>
    match specExtList cs with
    | r@(_ :: _) => r
    | [] => if c = '.' then c :: cs else []

/-- `specExtList` packaged on strings. -/
def specExt (name : String) : String := ⟨specExtList name.data⟩

/-! ## `path/filepath.Match`

A character-level transcription of Go's `filepath.Match` (`match.go`):
`scanChunk`, `getEsc`, the character-class loop and `matchChunk`, and the
outer `Pattern` loop including the trailing-star case, the star back-off
loop, and the validation of the remaining pattern before a `false` return.
`Except Unit` stands for Go's `(…, err)` with `ErrBadPattern`. -/

/-- Strip the leading `'*'`s of a pattern; the flag records whether at
least one star was present. -/
def stripStars : List Char → Bool × List Char
  | [] => (false, [])
  | c :: cs => if c = '*' then (true, (stripStars cs).2) else (false, c :: cs)

/-- The scan loop of `scanChunk`: split the (star-stripped) pattern into
the chunk up to the next top-level `'*'` and the rest, treating `[`…`]` as
a range in which `'*'` is literal and letting `'\\'` escape the next
character. -/
def scanChunkBody (inrange : Bool) : List Char → List Char × List Char
  | [] => ([], [])
  | c :: cs =>
    if c = '\\' then
      match cs with
      | c2 :: cs2 =>
        match scanChunkBody inrange cs2 with
        | (chunk, rest) => (c :: c2 :: chunk, rest)
      | [] => ([c], [])
    else if c = '*' && !inrange then ([], c :: cs)
    else
      let inrange2 := if c = '[' then true else if c = ']' then false else inrange
      match scanChunkBody inrange2 cs with
      | (chunk, rest) => (c :: chunk, rest)

/-- `scanChunk`: leading stars, then the first chunk and the remaining
pattern. -/
def scanChunk (pattern : List Char) : Bool × List Char × List Char :=
  match stripStars pattern with
  | (star, p2) =>
    match scanChunkBody false p2 with
    | (chunk, rest) => (star, chunk, rest)

/-- `getEsc`: read one (possibly `'\\'`-escaped) character of a character
class; fails on an empty chunk, on a leading `'-'` or `']'`, on a dangling
escape, and when nothing follows the character read. -/
def getEsc (chunk : List Char) : Except Unit (Char × List Char) :=
  match chunk with
  | [] => .error ()
  | c :: rest =>
    if c = '-' || c = ']' then .error ()
    else
      let body := if c = '\\' then rest else c :: rest
      match body with
      | [] => .error ()
      | r :: nchunk => if nchunk = [] then .error () else .ok (r, nchunk)

/-- The range loop of `matchChunk`'s `'['` case: accumulate whether `r`
falls in any `lo`-`hi` range, requiring at least one range before the
closing `']'`. Each iteration consumes at least one character through
`getEsc`, so fuel `chunk.length + 1` is never exhausted. -/
def classRanges : Nat → Char → Bool → Nat → List Char →
    Except Unit (Bool × List Char)
  | 0, _, _, _, _ => .error ()
  | Nat.succ fuel, r, m, nrange, chunk =>
    if chunk.headD ' ' = ']' && nrange > 0 then .ok (m, chunk.tail)
    else
      match getEsc chunk with
      | .error e => .error e
      | .ok (lo, c1) =>
        let step : Except Unit (Char × List Char) :=
          match c1 with
          | '-' :: c1t => getEsc c1t
          | _ => .ok (lo, c1)
        match step with
        | .error e => .error e
        | .ok (hi, c2) =>
          classRanges fuel r (m || (lo ≤ r && r ≤ hi)) (nrange + 1) c2

/-- `matchChunk`: match the chunk against the head of `s`, returning the
unmatched rest of `s` and whether the match succeeded; parsing continues
after a failure so that malformed patterns are still reported. Each
iteration consumes at least one chunk character, so fuel
`chunk.length + 1` is never exhausted. -/
def matchChunk : Nat → Bool → List Char → List Char →
    Except Unit (List Char × Bool)
  | 0, _, _, _ => .error ()
  | Nat.succ fuel, failed0, chunk, s =>
    match chunk with
    | [] => if failed0 then .ok ([], false) else .ok (s, true)
    | c :: cr =>
      let failed := failed0 || s.isEmpty
      if c = '[' then
        let r := if failed then Char.ofNat 0 else s.headD (Char.ofNat 0)
        let s1 := if failed then s else s.tail
        let neg : Bool × List Char :=
          match cr with
          | '^' :: crt => (true, crt)
          | _ => (false, cr)
        match classRanges (neg.2.length + 1) r false 0 neg.2 with
        | .error e => .error e
        | .ok (m, cr2) => matchChunk fuel (failed || (m = neg.1)) cr2 s1
      else if c = '?' then
        if failed then matchChunk fuel failed cr s
        else
          match s with
          | [] => matchChunk fuel true cr s
          | sc :: st =>
            if sc = '/' then matchChunk fuel true cr st
            else matchChunk fuel failed cr st
      else
        let lit : Except Unit (Char × List Char) :=
          if c = '\\' then
            match cr with
            | [] => .error ()
            | c2 :: cr2 => .ok (c2, cr2)
          else .ok (c, cr)
        match lit with
        | .error e => .error e
        | .ok (litc, cr2) =>
          if failed then matchChunk fuel failed cr2 s
          else
            match s with
            | [] => matchChunk fuel true cr2 s
            | sc :: st =>
              if litc = sc then matchChunk fuel failed cr2 st
              else matchChunk fuel true cr2 st

/-- The star back-off loop of `Match`: try `matchChunk` at every later
start position of `name` (never skipping past a separator); `some t`
means "continue the pattern loop with rest-of-name `t`". -/
def starLoop (chunk rest : List Char) : List Char →
    Except Unit (Option (List Char))
  | [] => .ok none
  | c :: nameTail =>
    if c = '/' then .ok none
    else
      match matchChunk (chunk.length + 1) false chunk nameTail with
      | .ok (t, true) =>
        if !rest.isEmpty || t.isEmpty then .ok (some t)
        else starLoop chunk rest nameTail
      | .ok (_, false) => starLoop chunk rest nameTail
      | .error e => .error e

/-- The bad-pattern check `Match` performs on the unconsumed pattern
before returning `false`: every remaining chunk must parse against the
empty string without a syntax error. Each step strictly shortens the
pattern, so fuel `pattern.length + 1` is never exhausted. -/
def validateRest : Nat → List Char → Except Unit Unit
  | 0, _ => .error ()
  | Nat.succ fuel, pattern =>
    match pattern with
    | [] => .ok ()
    | _ :: _ =>
      match scanChunk pattern with
      | (_, chunk, rest) =>
        match matchChunk (chunk.length + 1) false chunk [] with
        | .error e => .error e
        | .ok _ => validateRest fuel rest

/-- The `Pattern` loop of `filepath.Match`. Each iteration strictly
shortens the pattern, so fuel `pattern.length + 1` is never exhausted. -/
def matchLoop : Nat → List Char → List Char → Except Unit Bool
  | 0, _, _ => .error ()
  | Nat.succ fuel, pattern, name =>
    match pattern with
    | [] => .ok name.isEmpty
    | _ :: _ =>
      match scanChunk pattern with
      | (star, chunk, rest) =>
        if star && chunk.isEmpty then .ok (!(name.contains '/'))
        else
          match matchChunk (chunk.length + 1) false chunk name with
          | .error _ => .error ()
          | .ok (t, ok1) =>
            if ok1 && (t.isEmpty || !rest.isEmpty) then matchLoop fuel rest t
            else if star then
              match starLoop chunk rest name with
              | .error e => .error e
              | .ok (some t2) => matchLoop fuel rest t2
              | .ok none =>
                match validateRest (rest.length + 1) rest with
                | .error e => .error e
                | .ok _ => .ok false
            else
              match validateRest (rest.length + 1) rest with
              | .error e => .error e
              | .ok _ => .ok false

/-- `filepath.Match pattern name`: `.ok b` is Go's `(b, nil)`, `.error ()`
is Go's `(false, ErrBadPattern)`. -/
def goMatch (pattern name : String) : Except Unit Bool :=
  matchLoop (pattern.data.length + 1) pattern.data name.data

/-- `(matched, _) := filepath.Match(p, name)` as the scanner uses it: the
error is discarded, so an evaluation that reports `ErrBadPattern` behaves
exactly like a non-match. -/
def matchedDiscard (pattern name : String) : Bool :=
  match goMatch pattern name with
  | .ok b => b
  | .error _ => false

/-- The pattern loop of the walk callback (lines 92–96 of `main.go`): the
file is excluded when its base name matches any loaded pattern, a match
error counting as a non-match. -/
def patternExcluded (ps : List String) (name : String) : Bool :=
  ps.any (fun p => matchedDiscard p name)

/-! ## The `FileScanner` data model (`main.go`) -/

/-- `FileScanner`: the Go `map[string]bool` sets are modelled as lists
queried by membership, which coincides with lookup in a map whose stored
values are all `true`. -/
structure FileScanner where
  Root : String
  IgnoredNames : List String
  Patterns : List String
  AllowedExts : List String

/-- The pattern-collection loop of `NewScanner`: for every line the
`bufio.Scanner` yields, `strings.TrimSpace` it and append it to the
pattern list when it is non-empty and does not start with `'#'`. -/
def collectPatterns (acc : List String) : List (List Char) → List String
  | [] => acc
  | l :: ls =>
    let line := trimSpace l
    if !line.isEmpty && !(line.headD ' ' = '#') then
      collectPatterns (acc ++ [(⟨line⟩ : String)]) ls
    else collectPatterns acc ls

/-- The glob patterns `NewScanner` loads from the text of an ignore-file. -/
def parsePatterns (content : String) : List String :=
  collectPatterns [] (goLines content)

/-- `NewScanner root ignoreFile extensions`: the result of `os.Open` on the
ignore-file is modelled as `Option String` (`none` = the open failed, in
which case the pattern-loading block is skipped entirely). The Go function
always returns `(s, nil)`; the `Except` result records that construction
cannot fail. -/
def NewScanner (root : String) (ignoreContent : Option String)
    (extensions : List String) : Except String FileScanner :=
  .ok
    { Root := root
      IgnoredNames := [".git", "node_modules"]
      Patterns :=
        match ignoreContent with
        | none => []
        | some c => parsePatterns c
      AllowedExts := extensions }

/-! ## The file-system model -/

mutual
/-- One entry of the scanned tree. `content = none` means `os.ReadFile` on
the file fails; `readErr = true` means `os.ReadDir` on the directory fails
(which `filepath.WalkDir` reports to the callback as a walk-level error
for that directory's path). -/
inductive FSEntry where
  | file (name : String) (content : Option String)
  | dir (name : String) (readErr : Bool) (entries : FSList)

/-- The children of a directory, in the order `os.ReadDir` lists them. -/
inductive FSList where
  | nil
  | cons (e : FSEntry) (es : FSList)
end

/-- Build an `FSList` from a Lean list literal. -/
def FSList.ofList : List FSEntry → FSList
  | [] => .nil
  | e :: es => .cons e (FSList.ofList es)

/-- `d.Name()` of an entry. -/
def FSEntry.name : FSEntry → String
  | .file n _ => n
  | .dir n _ _ => n

/-! ## The walk (`ScanForAI`, lines 61–104 of `main.go`)

The `filepath.WalkDir` callback, specialised to the scanner's function:

* a directory whose name is in `IgnoredNames` returns `filepath.SkipDir`
  (its contents, and even its read error, are never looked at);
* any other directory is descended into; if its `ReadDir` fails the error
  is handed back to the callback, which returns it, aborting the walk;
* a file is dispatched to the worker channel when its `filepath.Ext` is in
  `AllowedExts` and its base name matches none of `Patterns`.

The walk result is the list of dispatched paths (paired with the content
the worker's `os.ReadFile` will observe) and the error `WalkDir` returns
(`some p` = the traversal failed at path `p`). -/

mutual
/-- Walk one entry whose full path is `path`. -/
def walkEntry (s : FileScanner) (path : String) :
    FSEntry → List (String × Option String) × Option String
  | .file name content =>
    if s.AllowedExts.contains (goExt path) &&
        !(patternExcluded s.Patterns name) then
      ([(path, content)], none)
    else ([], none)
  | .dir name readErr entries =>
    if s.IgnoredNames.contains name then ([], none)
    else if readErr then ([], some path)
    else walkList s path entries

/-- Walk the children of the directory at `dir`, stopping at the first
child whose walk returns an error. -/
def walkList (s : FileScanner) (dir : String) :
    FSList → List (String × Option String) × Option String
  | .nil => ([], none)
  | .cons e es =>
    match walkEntry s (joinPath dir e.name) e with
    | (ps, some er) => (ps, some er)
    | (ps, none) =>
      match walkList s dir es with
      | (ps2, err2) => (ps ++ ps2, err2)
end

/-- The paths pushed onto `pathsChan` during the walk, paired with the
content the dispatched worker's `os.ReadFile` observes (`none` = the read
fails). -/
def dispatched (s : FileScanner) (root : FSEntry) :
    List (String × Option String) :=
  (walkEntry s s.Root root).1

/-- `ScanForAI`: the root argument is `none` when `os.Lstat` on `s.Root`
fails (in which case `WalkDir` hands the error straight to the callback,
which returns it). The first component is the sequence of sink (callback)
invocations — one `(path, content)` pair per dispatched path whose read
succeeds, in dispatch order — and the second is the returned error. -/
def ScanForAI (s : FileScanner) (root : Option FSEntry) :
    List (String × String) × Option String :=
  match root with
  | none => ([], some s.Root)
  | some e =>
    match walkEntry s s.Root e with
    | (ps, err) =>
      (ps.filterMap (fun pc => pc.2.map (fun c => (pc.1, c))), err)

/-! ## Specification-side views of the tree -/

/-- One file of the tree together with the data the specification's
per-file condition talks about: its full path, its base name, the names of
all its ancestor directories (root directory included, nearest last), and
the content its read would produce. -/
structure FileInfo where
  path : String
  base : String
  ancestors : List String
  content : Option String
  deriving DecidableEq, Repr

mutual
/-- All files of an entry (whose own full path is `path` and whose
ancestor directory names are `anc`), in traversal order, with no pruning
of any kind. -/
def allFiles (path : String) (anc : List String) : FSEntry → List FileInfo
  | .file name content => [⟨path, name, anc, content⟩]
  | .dir name _ entries => allFilesList path (anc ++ [name]) entries

/-- All files below a directory whose full path is `dir`. -/
def allFilesList (dir : String) (anc : List String) : FSList → List FileInfo
  | .nil => []
  | .cons e es =>
    allFiles (joinPath dir e.name) anc e ++ allFilesList dir anc es
end

/-- No ancestor name lies in the scanner's ignored set. -/
def cleanAnc (s : FileScanner) (anc : List String) : Bool :=
  anc.all (fun a => !(s.IgnoredNames.contains a))

/-- The specification's acceptance condition for a file: its extension
(computed from the base name as the spec describes) is allowed, its base
name matches no glob pattern, and no ancestor directory is ignored. -/
def specAccept (s : FileScanner) (f : FileInfo) : Bool :=
  s.AllowedExts.contains (specExt f.base) &&
  !(patternExcluded s.Patterns f.base) &&
  cleanAnc s f.ancestors

/-- A name a real directory entry can have: no path separator. -/
def slashFree (n : String) : Bool := n.data.all (fun c => !(c = '/'))

mutual
/-- Every entry name in the tree is separator-free (true of every tree a
real file system can present to the walk). -/
def entryWF : FSEntry → Bool
  | .file name _ => slashFree name
  | .dir name _ es => slashFree name && listWF es

/-- `entryWF` on a list of children. -/
def listWF : FSList → Bool
  | .nil => true
  | .cons e es => entryWF e && listWF es
end

mutual
/-- No directory anywhere in the tree fails its `ReadDir`: the walk is
fully successful. -/
def noReadErr : FSEntry → Bool
  | .file _ _ => true
  | .dir _ re es => !re && noReadErrList es

/-- `noReadErr` on a list of children. -/
def noReadErrList : FSList → Bool
  | .nil => true
  | .cons e es => noReadErr e && noReadErrList es
end

mutual
/-- Replace the contents (and read error) of every directory whose name is
in the scanner's ignored set by nothing at all: what remains is exactly
what a walk that never descends into ignored directories can observe. -/
def pruneIgnored (s : FileScanner) : FSEntry → FSEntry
  | .file name content => .file name content
  | .dir name readErr es =>
    if s.IgnoredNames.contains name then .dir name false .nil
    else .dir name readErr (pruneIgnoredList s es)

/-- `pruneIgnored` on a list of children. -/
def pruneIgnoredList (s : FileScanner) : FSList → FSList
  | .nil => .nil
  | .cons e es => .cons (pruneIgnored s e) (pruneIgnoredList s es)
end

mutual
/-- Make every file of the tree unreadable (every `os.ReadFile` fails),
leaving the tree structure untouched. -/
def eraseReads : FSEntry → FSEntry
  | .file name _ => .file name none
  | .dir name readErr es => .dir name readErr (eraseReadsList es)

/-- `eraseReads` on a list of children. -/
def eraseReadsList : FSList → FSList
  | .nil => .nil
  | .cons e es => .cons (eraseReads e) (eraseReadsList es)
end

mutual
/-- The walk-level error sites of the tree in traversal order, respecting
pruning: the paths of the non-ignored directories whose `ReadDir` fails,
the unreachable ones below a failing directory excluded. The error the
walk returns is the head of this list. -/
def walkErrors (s : FileScanner) (path : String) : FSEntry → List String
  | .file _ _ => []
  | .dir name readErr es =>
    if s.IgnoredNames.contains name then []
    else if readErr then [path]
    else walkErrorsList s path es

/-- `walkErrors` on a list of children. -/
def walkErrorsList (s : FileScanner) (dir : String) : FSList → List String
  | .nil => []
  | .cons e es =>
    walkErrors s (joinPath dir e.name) e ++ walkErrorsList s dir es
end

/-! ## Lemmas about extensions, base names and paths -/

theorem specExtList_eq_nil_of_no_dot : ∀ l : List Char,
    '.' ∉ l → specExtList l = []
  | [], _ => rfl
  | c :: cs, h => by
    have hc : ¬(c = '.') := fun hc => h (hc ▸ List.mem_cons_self c cs)
    have ht : '.' ∉ cs := fun ht => h (List.mem_cons_of_mem c ht)
    simp only [specExtList, specExtList_eq_nil_of_no_dot cs ht]
    simp [hc]

theorem specExtList_append_dot : ∀ (xs acc : List Char),
    '.' ∉ acc → specExtList (xs ++ '.' :: acc) = '.' :: acc
  | [], acc, h => by
    simp [specExtList, specExtList_eq_nil_of_no_dot acc h]
  | x :: xs, acc, h => by
    have ih := specExtList_append_dot xs acc h
    simp only [List.cons_append, specExtList]
    rw [show xs.append ('.' :: acc) = xs ++ '.' :: acc from rfl, ih]

theorem extRevScan_eq_specExtList : ∀ (rl acc : List Char), '.' ∉ acc →
    extRevScan acc rl =
      specExtList ((rl.takeWhile (fun c => !(c = '/'))).reverse ++ acc)
  | [], acc, h => by
    simp [extRevScan, specExtList_eq_nil_of_no_dot acc h]
  | c :: rest, acc, h => by
    by_cases hs : c = '/'
    · subst hs
      simp [extRevScan, List.takeWhile_cons,
        specExtList_eq_nil_of_no_dot acc h]
    · by_cases hd : c = '.'
      · subst hd
        rw [show extRevScan acc ('.' :: rest) = '.' :: acc by
          simp [extRevScan]]
        rw [List.takeWhile_cons, if_pos (by simp), List.reverse_cons,
          List.append_assoc, List.singleton_append]
        exact (specExtList_append_dot _ acc h).symm
      · have hacc : '.' ∉ c :: acc := by
          intro hm
          rcases List.mem_cons.mp hm with h1 | h1
          · exact hd h1.symm
          · exact h h1
        rw [show extRevScan acc (c :: rest) = extRevScan (c :: acc) rest by
          simp [extRevScan, hs, hd]]
        rw [extRevScan_eq_specExtList rest (c :: acc) hacc]
        rw [List.takeWhile_cons, if_pos (by simp [hs]), List.reverse_cons,
          List.append_assoc, List.singleton_append]

/-- `filepath.Ext` computes exactly the specification's extension of the
path's base name: the substring from the last dot of the base name to its
end, empty when the base name has no dot. -/
theorem goExt_eq_specExt_baseName (p : String) :
    goExt p = specExt (baseName p) := by
  have h := extRevScan_eq_specExtList p.data.reverse [] (by simp)
  simp only [List.append_nil] at h
  simp only [goExt, specExt, baseName, h]

theorem takeWhile_append_of_all : ∀ (l1 : List Char) (x : Char)
    (l2 : List Char) (p : Char → Bool), (∀ c ∈ l1, p c = true) →
    p x = false → (l1 ++ x :: l2).takeWhile p = l1
  | [], x, l2, p, _, hx => by simp [List.takeWhile_cons, hx]
  | c :: l1, x, l2, p, h, hx => by
    have hc := h c (List.mem_cons_self c l1)
    simp [List.takeWhile_cons, hc,
      takeWhile_append_of_all l1 x l2 p
        (fun a ha => h a (List.mem_cons_of_mem c ha)) hx]

/-- The base name of a path built by the walk is the entry's own name. -/
theorem baseName_joinPath (dir name : String)
    (h : slashFree name = true) : baseName (joinPath dir name) = name := by
  have hall : ∀ c ∈ name.data.reverse, (fun c => !(c = '/')) c = true := by
    intro c hc
    have := (List.all_eq_true.mp h) c (List.mem_reverse.mp hc)
    simpa using this
  have hdata : (joinPath dir name).data.reverse =
      name.data.reverse ++ '/' :: dir.data.reverse := by
    simp [joinPath]
  simp only [baseName, hdata,
    takeWhile_append_of_all name.data.reverse '/' dir.data.reverse _
      hall (by simp), List.reverse_reverse]

/-- On a path built by the walk, `filepath.Ext` computes the
specification's extension of the entry name. -/
theorem goExt_joinPath (dir name : String) (h : slashFree name = true) :
    goExt (joinPath dir name) = specExt name := by
  rw [goExt_eq_specExt_baseName, baseName_joinPath dir name h]

/-! ## Lemmas about the walk -/

mutual
/-- A fully successful walk of an entry produces no error. -/
theorem walkEntry_err_none : ∀ (s : FileScanner) (p : String) (e : FSEntry),
    noReadErr e = true → (walkEntry s p e).2 = none
  | s, p, .file n c, _ => by
    simp only [walkEntry]
    split <;> rfl
  | s, p, .dir n re es, h => by
    simp only [noReadErr, Bool.and_eq_true, Bool.not_eq_true'] at h
    simp only [walkEntry, h.1]
    split
    · rfl
    · rw [if_neg (by simp)]
      exact walkList_err_none s p es h.2

/-- A fully successful walk of a child list produces no error. -/
theorem walkList_err_none : ∀ (s : FileScanner) (d : String) (es : FSList),
    noReadErrList es = true → (walkList s d es).2 = none
  | s, d, .nil, _ => rfl
  | s, d, .cons e es, h => by
    simp only [noReadErrList, Bool.and_eq_true] at h
    have h1 := walkEntry_err_none s (joinPath d e.name) e h.1
    have h2 := walkList_err_none s d es h.2
    simp only [walkList]
    rcases hw : walkEntry s (joinPath d e.name) e with ⟨ps, err⟩
    rw [hw] at h1
    simp only at h1
    subst h1
    rcases hl : walkList s d es with ⟨ps2, err2⟩
    rw [hl] at h2
    simp only at h2
    subst h2
    simp
end

mutual
/-- The error a walk of an entry returns is the first of the error sites
of the pruned tree, in traversal order. -/
theorem walkEntry_err_eq_head : ∀ (s : FileScanner) (p : String)
    (e : FSEntry), (walkEntry s p e).2 = (walkErrors s p e).head?
  | s, p, .file n c => by
    simp only [walkEntry, walkErrors]
    split <;> rfl
  | s, p, .dir n re es => by
    simp only [walkEntry, walkErrors]
    split
    · rfl
    · split
      · rfl
      · exact walkList_err_eq_head s p es

/-- The error a walk of a child list returns is the first of the error
sites of the pruned children, in traversal order. -/
theorem walkList_err_eq_head : ∀ (s : FileScanner) (d : String)
    (es : FSList), (walkList s d es).2 = (walkErrorsList s d es).head?
  | s, d, .nil => rfl
  | s, d, .cons e es => by
    have h1 := walkEntry_err_eq_head s (joinPath d e.name) e
    have h2 := walkList_err_eq_head s d es
    simp only [walkList, walkErrorsList]
    rcases hw : walkEntry s (joinPath d e.name) e with ⟨ps, err⟩
    rw [hw] at h1
    simp only at h1
    cases err with
    | some er =>
      rcases hl : walkErrors s (joinPath d e.name) e with _ | ⟨x, xs⟩
      · rw [hl] at h1; simp at h1
      · rw [hl] at h1
        simp only [List.head?] at h1
        simp [h1.symm]
    | none =>
      rcases hl : walkErrors s (joinPath d e.name) e with _ | ⟨x, xs⟩
      · rcases hL : walkList s d es with ⟨ps2, err2⟩
        rw [hL] at h2
        simp only at h2
        simp [h2]
      · rw [hl] at h1; simp at h1
end

/-- `eraseReads` does not rename an entry. -/
theorem eraseReads_name (e : FSEntry) : (eraseReads e).name = e.name := by
  cases e <;> rfl

mutual
/-- Making every file unreadable leaves the walk's dispatch decisions and
error untouched; only the observed contents become `none`. -/
theorem walkEntry_eraseReads : ∀ (s : FileScanner) (p : String)
    (e : FSEntry), walkEntry s p (eraseReads e) =
      ((walkEntry s p e).1.map (fun pc => (pc.1, (none : Option String))),
       (walkEntry s p e).2)
  | s, p, .file n c => by
    simp only [eraseReads, walkEntry]
    split <;> simp
  | s, p, .dir n re es => by
    simp only [eraseReads, walkEntry]
    split
    · simp
    · split
      · simp
      · exact walkList_eraseReads s p es

/-- `walkEntry_eraseReads` on a child list. -/
theorem walkList_eraseReads : ∀ (s : FileScanner) (d : String)
    (es : FSList), walkList s d (eraseReadsList es) =
      ((walkList s d es).1.map (fun pc => (pc.1, (none : Option String))),
       (walkList s d es).2)
  | s, d, .nil => rfl
  | s, d, .cons e es => by
    have h1 := walkEntry_eraseReads s (joinPath d e.name) e
    have h2 := walkList_eraseReads s d es
    simp only [eraseReadsList, walkList, eraseReads_name]
    rcases hw : walkEntry s (joinPath d e.name) e with ⟨ps, err⟩
    rw [hw] at h1
    rw [h1]
    cases err with
    | some er => simp
    | none =>
      rcases hL : walkList s d es with ⟨ps2, err2⟩
      rw [hL] at h2
      rw [h2]
      simp
end

/-- `pruneIgnored` does not rename an entry. -/
theorem pruneIgnored_name (s : FileScanner) (e : FSEntry) :
    (pruneIgnored s e).name = e.name := by
  cases e with
  | file n c => rfl
  | dir n re es =>
    simp only [pruneIgnored]
    split <;> rfl

mutual
/-- The walk of a tree equals the walk of the tree with the contents of
every ignored-name directory deleted: nothing below an ignored directory
(its files, subdirectories, or even its read error) is ever examined. -/
theorem walkEntry_pruneIgnored : ∀ (s : FileScanner) (p : String)
    (e : FSEntry), walkEntry s p (pruneIgnored s e) = walkEntry s p e
  | s, p, .file n c => rfl
  | s, p, .dir n re es => by
    by_cases hig : n ∈ s.IgnoredNames
    · simp [pruneIgnored, walkEntry, hig]
    · cases re with
      | true => simp [pruneIgnored, walkEntry, hig]
      | false =>
        simp [pruneIgnored, walkEntry, hig, walkList_pruneIgnored s p es]

/-- `walkEntry_pruneIgnored` on a child list. -/
theorem walkList_pruneIgnored : ∀ (s : FileScanner) (d : String)
    (es : FSList), walkList s d (pruneIgnoredList s es) = walkList s d es
  | s, d, .nil => rfl
  | s, d, .cons e es => by
    simp only [pruneIgnoredList, walkList, pruneIgnored_name,
      walkEntry_pruneIgnored s (joinPath d e.name) e,
      walkList_pruneIgnored s d es]
end

/-! ## The walk against the specification's per-file condition -/

/-- An entry's `entryWF` includes its own name being separator-free. -/
theorem entryWF_slashFree (e : FSEntry) (h : entryWF e = true) :
    slashFree e.name = true := by
  cases e with
  | file n c => exact h
  | dir n re es =>
    simp only [entryWF, Bool.and_eq_true] at h
    exact h.1

mutual
/-- Accumulated ancestors persist into every file record of the subtree. -/
theorem mem_allFiles_anc : ∀ (path : String) (anc : List String)
    (e : FSEntry) (f : FileInfo), f ∈ allFiles path anc e →
    ∀ a ∈ anc, a ∈ f.ancestors
  | path, anc, .file n c, f, hf, a, ha => by
    simp only [allFiles, List.mem_singleton] at hf
    subst hf
    exact ha
  | path, anc, .dir n re es, f, hf, a, ha => by
    simp only [allFiles] at hf
    exact mem_allFilesList_anc path (anc ++ [n]) es f hf a
      (List.mem_append_left _ ha)

/-- `mem_allFiles_anc` on a child list. -/
theorem mem_allFilesList_anc : ∀ (dir : String) (anc : List String)
    (es : FSList) (f : FileInfo), f ∈ allFilesList dir anc es →
    ∀ a ∈ anc, a ∈ f.ancestors
  | dir, anc, .nil, f, hf, a, ha => by simp [allFilesList] at hf
  | dir, anc, .cons e es, f, hf, a, ha => by
    simp only [allFilesList, List.mem_append] at hf
    rcases hf with hf | hf
    · exact mem_allFiles_anc (joinPath dir e.name) anc e f hf a ha
    · exact mem_allFilesList_anc dir anc es f hf a ha
end

/-- Below a directory whose name is ignored, no file satisfies the
specification's condition: its ancestor list contains the ignored name. -/
theorem filter_specAccept_ignored (s : FileScanner) (dir : String)
    (anc : List String) (es : FSList) (n : String)
    (hn : s.IgnoredNames.contains n = true) :
    (allFilesList dir (anc ++ [n]) es).filter (specAccept s) = [] := by
  rw [List.filter_eq_nil_iff]
  intro f hf
  have hmem : n ∈ f.ancestors :=
    mem_allFilesList_anc dir (anc ++ [n]) es f hf n
      (List.mem_append_right _ (List.mem_singleton.mpr rfl))
  simp only [specAccept, cleanAnc, Bool.and_eq_true, List.all_eq_true]
  intro h
  have := h.2 n hmem
  simp only [Bool.not_eq_true'] at this
  rw [hn] at this
  simp at this

mutual
/-- On a fully successful walk of a well-formed entry reached through
non-ignored ancestors `anc`, the dispatched paths are exactly the files of
the subtree satisfying the specification's condition. -/
theorem walkEntry_filter : ∀ (s : FileScanner) (path : String)
    (anc : List String) (e : FSEntry), entryWF e = true →
    noReadErr e = true → cleanAnc s anc = true → baseName path = e.name →
    (walkEntry s path e).1 =
      ((allFiles path anc e).filter (specAccept s)).map
        (fun f => (f.path, f.content))
  | s, path, anc, .file n c, hwf, herr, hanc, hbn => by
    simp only [FSEntry.name] at hbn
    have hext : goExt path = specExt n := by
      rw [goExt_eq_specExt_baseName, hbn]
    have hpred : specAccept s ⟨path, n, anc, c⟩ =
        (s.AllowedExts.contains (specExt n) &&
          !(patternExcluded s.Patterns n)) := by
      simp [specAccept, hanc]
    simp only [walkEntry, allFiles, List.filter_cons, List.filter_nil,
      hpred, hext]
    split <;> rename_i h <;> simp [h]
  | s, path, anc, .dir n re es, hwf, herr, hanc, hbn => by
    simp only [entryWF, Bool.and_eq_true] at hwf
    simp only [noReadErr, Bool.and_eq_true, Bool.not_eq_true'] at herr
    by_cases hig : n ∈ s.IgnoredNames
    · have hig2 : s.IgnoredNames.contains n = true := by simpa using hig
      simp only [walkEntry, allFiles]
      rw [if_pos (by simpa using hig)]
      rw [filter_specAccept_ignored s path anc es n hig2]
      simp
    · have hanc2 : cleanAnc s (anc ++ [n]) = true := by
        simp only [cleanAnc, List.all_append, Bool.and_eq_true] at hanc ⊢
        refine ⟨hanc, ?_⟩
        simpa using hig
      simp only [walkEntry, allFiles]
      rw [if_neg (by simpa using hig), herr.1, if_neg (by simp)]
      exact walkList_filter s path (anc ++ [n]) es hwf.2 herr.2 hanc2

/-- `walkEntry_filter` on a child list. -/
theorem walkList_filter : ∀ (s : FileScanner) (dir : String)
    (anc : List String) (es : FSList), listWF es = true →
    noReadErrList es = true → cleanAnc s anc = true →
    (walkList s dir es).1 =
      ((allFilesList dir anc es).filter (specAccept s)).map
        (fun f => (f.path, f.content))
  | s, dir, anc, .nil, _, _, _ => rfl
  | s, dir, anc, .cons e es, hwf, herr, hanc => by
    simp only [listWF, Bool.and_eq_true] at hwf
    simp only [noReadErrList, Bool.and_eq_true] at herr
    have hbn := baseName_joinPath dir e.name (entryWF_slashFree e hwf.1)
    have h1 := walkEntry_filter s (joinPath dir e.name) anc e hwf.1
      herr.1 hanc hbn
    have h2 := walkList_filter s dir anc es hwf.2 herr.2 hanc
    have herrnone := walkEntry_err_none s (joinPath dir e.name) e herr.1
    simp only [walkList, allFilesList]
    rcases hw : walkEntry s (joinPath dir e.name) e with ⟨ps, err⟩
    rw [hw] at h1 herrnone
    simp only at h1 herrnone
    subst herrnone
    rcases hL : walkList s dir es with ⟨ps2, err2⟩
    rw [hL] at h2
    simp only at h2
    simp only [List.filter_append, List.map_append, h1, h2]
end

/-- The sink deliveries of a scan are the dispatched paths whose read
succeeds. -/
theorem scanForAI_fst (s : FileScanner) (t : FSEntry) :
    (ScanForAI s (some t)).1 =
      (walkEntry s s.Root t).1.filterMap
        (fun pc => pc.2.map (fun c => (pc.1, c))) := by
  simp only [ScanForAI]

/-- The error of a scan is the error of the walk. -/
theorem scanForAI_snd (s : FileScanner) (t : FSEntry) :
    (ScanForAI s (some t)).2 = (walkEntry s s.Root t).2 := by
  simp only [ScanForAI]

/-- Keeping, per dispatched pair, at most the successful read can only
lower the number of sink deliveries any single path receives. -/
theorem count_filterMap_read_le : ∀ (l : List (String × Option String))
    (p : String),
    ((l.filterMap (fun pc => pc.2.map (fun c => (pc.1, c)))).map
      Prod.fst).count p ≤ (l.map Prod.fst).count p
  | [], _ => Nat.le_refl 0
  | (q, oc) :: l, p => by
    have ih := count_filterMap_read_le l p
    cases oc with
    | none =>
      simp only [List.filterMap_cons, Option.map_none', List.map_cons]
      exact Nat.le_trans ih (List.count_le_count_cons p q _)
    | some c =>
      simp only [List.filterMap_cons, Option.map_some', List.map_cons,
        List.count_cons]
      omega

mutual
/-- A fully successful walk has no error sites. -/
theorem walkErrors_nil_of_noReadErr : ∀ (s : FileScanner) (p : String)
    (e : FSEntry), noReadErr e = true → walkErrors s p e = []
  | s, p, .file n c, _ => rfl
  | s, p, .dir n re es, h => by
    simp only [noReadErr, Bool.and_eq_true, Bool.not_eq_true'] at h
    simp only [walkErrors, h.1]
    split
    · rfl
    · rw [if_neg (by simp)]
      exact walkErrorsList_nil_of_noReadErr s p es h.2

/-- `walkErrors_nil_of_noReadErr` on a child list. -/
theorem walkErrorsList_nil_of_noReadErr : ∀ (s : FileScanner) (d : String)
    (es : FSList), noReadErrList es = true → walkErrorsList s d es = []
  | s, d, .nil, _ => rfl
  | s, d, .cons e es, h => by
    simp only [noReadErrList, Bool.and_eq_true] at h
    simp only [walkErrorsList,
      walkErrors_nil_of_noReadErr s (joinPath d e.name) e h.1,
      walkErrorsList_nil_of_noReadErr s d es h.2, List.nil_append]
end

mutual
/-- The glob patterns influence only which files are dispatched, never the
walk's error. -/
theorem walkEntry_err_patterns : ∀ (s : FileScanner) (ps : List String)
    (p : String) (e : FSEntry),
    (walkEntry { s with Patterns := ps } p e).2 = (walkEntry s p e).2
  | s, ps, p, .file n c => by
    simp only [walkEntry]
    split <;> split <;> rfl
  | s, ps, p, .dir n re es => by
    simp only [walkEntry]
    split
    · rfl
    · split
      · rfl
      · exact walkList_err_patterns s ps p es

/-- `walkEntry_err_patterns` on a child list. -/
theorem walkList_err_patterns : ∀ (s : FileScanner) (ps : List String)
    (d : String) (es : FSList),
    (walkList { s with Patterns := ps } d es).2 = (walkList s d es).2
  | s, ps, d, .nil => rfl
  | s, ps, d, .cons e es => by
    have h1 := walkEntry_err_patterns s ps (joinPath d e.name) e
    have h2 := walkList_err_patterns s ps d es
    simp only [walkList]
    rcases hw : walkEntry { s with Patterns := ps } (joinPath d e.name) e
      with ⟨qs, errq⟩
    rcases hw2 : walkEntry s (joinPath d e.name) e with ⟨rs, errr⟩
    rw [hw, hw2] at h1
    simp only at h1
    subst h1
    cases errq with
    | some er => simp
    | none =>
      rcases hL : walkList { s with Patterns := ps } d es with ⟨qs2, errq2⟩
      rcases hL2 : walkList s d es with ⟨rs2, errr2⟩
      rw [hL, hL2] at h2
      simp only at h2
      subst h2
      simp
end

/-! ## Concrete data for witnesses -/

/-- A sample scanner configuration for concrete evaluations. -/
def sampleScanner : FileScanner :=
  { Root := "r", IgnoredNames := [".git", "node_modules"], Patterns := [],
    AllowedExts := [".go"] }

/-- The specification's worked example tree:
`{a.go, b.txt, sub/.git/c.go, sub/d.go}`. -/
def sampleTree : FSEntry :=
  .dir "r" false (.ofList
    [ .file "a.go" (some "A"),
      .file "b.txt" (some "B"),
      .dir "sub" false (.ofList
        [ .dir ".git" false (.ofList [.file "c.go" (some "C")]),
          .file "d.go" (some "D") ]) ])

/-! ## The claims -/

/-- The pattern-collection loop appends, in order, the trimmed lines that
survive the blank/comment test. -/
theorem collectPatterns_eq : ∀ (acc : List String) (ls : List (List Char)),
    collectPatterns acc ls =
      acc ++ (((ls.map trimSpace).filter
        (fun l => !l.isEmpty && !(l.headD ' ' = '#'))).map
        (fun l => (⟨l⟩ : String)))
  | acc, [] => by simp [collectPatterns]
  | acc, l :: ls => by
    simp only [collectPatterns, List.map_cons, List.filter_cons]
    by_cases hc : (!(trimSpace l).isEmpty &&
        !((trimSpace l).headD ' ' = '#')) = true
    · have ih := collectPatterns_eq (acc ++ [(⟨trimSpace l⟩ : String)]) ls
      rw [if_pos hc, if_pos hc, ih]
      simp
    · rw [if_neg hc, if_neg hc]
      exact collectPatterns_eq acc ls

/-- The pattern list as the claim literally reads: the lines of the
ignore-file that are neither blank nor start with `'#'`, each taken
character for character as the pattern. -/
def literalPatterns (content : String) : List String :=
  ((goLines content).filter
    (fun l => !l.isEmpty && !(l.headD ' ' = '#'))).map
    (fun l => (⟨l⟩ : String))

/-- **C6, counterexample.** On the one-line ignore-file `" *.go"` (one
leading blank), the pattern the scanner loads is the trimmed `"*.go"`, not
the literal line `" *.go"`: patterns are not taken character for
character. -/
theorem parsePatterns_ne_literalPatterns :
    parsePatterns " *.go" ≠ literalPatterns " *.go" := by decide

/-- **C6, amended.** The loaded patterns are exactly the lines of the
ignore-file trimmed of surrounding white space that, after trimming, are
non-empty and do not start with `'#'`, stored in trimmed form; matching
applies them to a file's base name only (`patternExcluded` receives only
the walk entry's `d.Name()`). -/
theorem parsePatterns_eq_trimmed_lines (content : String) :
    parsePatterns content =
      (((goLines content).map trimSpace).filter
        (fun l => !l.isEmpty && !(l.headD ' ' = '#'))).map
        (fun l => (⟨l⟩ : String)) := by
  simpa using collectPatterns_eq [] (goLines content)

/-- **C9.** Whatever the constructor's arguments, the scanner it returns
has exactly `{".git", "node_modules"}` as its ignored directory names: the
set is hardcoded in `NewScanner` and no argument reaches it. -/
theorem newScanner_ignoredNames_fixed (root : String)
    (ignoreContent : Option String) (extensions : List String) :
    ∃ sc, NewScanner root ignoreContent extensions = .ok sc ∧
      sc.IgnoredNames = [".git", "node_modules"] :=
  ⟨_, rfl, rfl⟩

/-- **C3.** When the ignore-file cannot be opened, construction still
succeeds, the loaded pattern list is empty, and the scan behaves exactly
as it does with an empty pattern list — construction and scan never fail
for this reason. -/
theorem newScanner_missing_ignore_file (root : String)
    (extensions : List String) (t : Option FSEntry) :
    ∃ sc, NewScanner root none extensions = .ok sc ∧ sc.Patterns = [] ∧
      ScanForAI sc t = ScanForAI { sc with Patterns := [] } t :=
  ⟨_, rfl, rfl, rfl⟩

/-- **C1.** On a fully successful walk (no directory read fails) of a
well-formed tree whose root entry carries the base name of `s.Root`, the
sink deliveries are exactly the files `f` of the tree — in traversal
order — such that `f`'s extension is in `AllowedExts`, `f`'s base name
matches no pattern in `Patterns`, and no ancestor directory of `f` has a
name in `IgnoredNames`, restricted to the readable ones: the sink is
invoked for `f` iff those conditions hold. -/
theorem scanForAI_sink_iff_spec (s : FileScanner) (root : FSEntry)
    (hwf : entryWF root = true) (herr : noReadErr root = true)
    (hbn : baseName s.Root = root.name) :
    (ScanForAI s (some root)).1 =
      ((allFiles s.Root [] root).filter (specAccept s)).filterMap
        (fun f => f.content.map (fun c => (f.path, c))) := by
  rw [scanForAI_fst, walkEntry_filter s s.Root [] root hwf herr rfl hbn,
    List.filterMap_map]
  rfl

/-- Witness for C1 on the specification's worked example: the sink is
invoked exactly for `r/a.go` and `r/sub/d.go`. -/
theorem scanForAI_sink_iff_spec_witness :
    entryWF sampleTree = true ∧ noReadErr sampleTree = true ∧
    baseName sampleScanner.Root = sampleTree.name ∧
    ((ScanForAI sampleScanner (some sampleTree)).1 =
      ((allFiles sampleScanner.Root [] sampleTree).filter
        (specAccept sampleScanner)).filterMap
        (fun f => f.content.map (fun c => (f.path, c)))) ∧
    (ScanForAI sampleScanner (some sampleTree)).1 =
      [("r/a.go", "A"), ("r/sub/d.go", "D")] :=
  ⟨by decide, by decide, by decide,
    scanForAI_sink_iff_spec sampleScanner sampleTree (by decide) (by decide)
      (by decide),
    by decide⟩

/-- **C2.** The walk never descends into a directory whose name is
ignored: deleting everything below every ignored-name directory (even its
read error) leaves the whole scan result — sink deliveries and error —
unchanged, so nothing beneath such a directory is ever examined or
dispatched and no sink call arises from it; moreover the walk of an
ignored-name directory itself dispatches nothing and reports no error. -/
theorem scanForAI_ignored_dirs_pruned (s : FileScanner) (p n : String)
    (re : Bool) (es : FSList) (t : FSEntry)
    (hig : s.IgnoredNames.contains n = true) :
    ScanForAI s (some (pruneIgnored s t)) = ScanForAI s (some t) ∧
    walkEntry s p (.dir n re es) = ([], none) := by
  constructor
  · simp only [ScanForAI, walkEntry_pruneIgnored s s.Root t]
  · simp only [walkEntry]
    rw [if_pos (by simpa using hig)]

/-- Witness for C2: pruning the sample tree below `.git` changes nothing,
and a `.git` directory is skipped outright. -/
theorem scanForAI_ignored_dirs_pruned_witness :
    sampleScanner.IgnoredNames.contains ".git" = true ∧
    (ScanForAI sampleScanner (some (pruneIgnored sampleScanner sampleTree))
        = ScanForAI sampleScanner (some sampleTree) ∧
      walkEntry sampleScanner "r/.git"
        (.dir ".git" false .nil) = ([], none)) :=
  ⟨by decide,
    scanForAI_ignored_dirs_pruned sampleScanner "r/.git" ".git" false
      .nil sampleTree (by decide)⟩

/-- **C7.** The extension `filepath.Ext` hands to the allow-list test is
exactly the claim's function of the base name — the substring from the
last `'.'` of the base name to its end, dot included, empty when the base
name has no dot — and a file whose extension is not in `AllowedExts` is
not dispatched. -/
theorem ext_is_base_name_suffix (dir name : String) (s : FileScanner)
    (c : Option String) (h : slashFree name = true)
    (hnot : s.AllowedExts.contains (goExt (joinPath dir name)) = false) :
    (∀ q : String, goExt q = specExt (baseName q)) ∧
    goExt (joinPath dir name) = specExt name ∧
    walkEntry s (joinPath dir name) (.file name c) = ([], none) := by
  refine ⟨goExt_eq_specExt_baseName, goExt_joinPath dir name h, ?_⟩
  have hnot2 : ¬(goExt (joinPath dir name) ∈ s.AllowedExts) := by
    simpa using hnot
  simp [walkEntry, hnot2]

/-- Witness for C7: `r/a.txt` has extension `.txt`, computed from the
base name, and is excluded when only `.go` is allowed. -/
theorem ext_is_base_name_suffix_witness :
    slashFree "a.txt" = true ∧
    sampleScanner.AllowedExts.contains (goExt (joinPath "r" "a.txt"))
      = false ∧
    goExt (joinPath "r" "a.txt") = specExt "a.txt" ∧
    walkEntry sampleScanner (joinPath "r" "a.txt")
      (.file "a.txt" (some "x")) = ([], none) :=
  ⟨by decide, by decide,
    (ext_is_base_name_suffix "r" "a.txt" sampleScanner (some "x")
      (by decide) (by decide)).2.1,
    (ext_is_base_name_suffix "r" "a.txt" sampleScanner (some "x")
      (by decide) (by decide)).2.2⟩

/-- **C4.** The sink deliveries are the dispatched paths transformed by
the per-path read: one delivery for a dispatched path whose read
succeeds, none for one whose read fails, so a dispatched path is
delivered at most as often as it is dispatched (at most once, since walk
paths are distinct); and a read failure never aborts the scan — making
every file unreadable leaves the returned error unchanged. -/
theorem scanForAI_read_failures_skipped (s : FileScanner) (t : FSEntry) :
    (ScanForAI s (some t)).1 =
      (dispatched s t).filterMap
        (fun pc => pc.2.map (fun c => (pc.1, c))) ∧
    (∀ p : String,
      ((ScanForAI s (some t)).1.map Prod.fst).count p ≤
        ((dispatched s t).map Prod.fst).count p) ∧
    (ScanForAI s (some (eraseReads t))).2 = (ScanForAI s (some t)).2 := by
  refine ⟨scanForAI_fst s t, ?_, ?_⟩
  · intro p
    rw [scanForAI_fst]
    exact count_filterMap_read_le (walkEntry s s.Root t).1 p
  · rw [scanForAI_snd, scanForAI_snd, walkEntry_eraseReads s s.Root t]

/-- **C5.** The scan returns the first walk-level error of the traversal
(`none` — Go's `nil` — when the walk is fully successful); the error is
unchanged when every per-file read fails, so read errors never surface in
it; and a root that cannot be statted is itself reported as the walk
error. -/
theorem scanForAI_error_first_walk_error (s : FileScanner) (t : FSEntry) :
    (ScanForAI s (some t)).2 = (walkErrors s s.Root t).head? ∧
    (noReadErr t = true → (ScanForAI s (some t)).2 = none) ∧
    (ScanForAI s (some (eraseReads t))).2 = (ScanForAI s (some t)).2 ∧
    (ScanForAI s none).2 = some s.Root := by
  refine ⟨?_, ?_, ?_, rfl⟩
  · rw [scanForAI_snd]
    exact walkEntry_err_eq_head s s.Root t
  · intro h
    rw [scanForAI_snd]
    exact walkEntry_err_none s s.Root t h
  · rw [scanForAI_snd, scanForAI_snd, walkEntry_eraseReads s s.Root t]

/-- Witness for C5: the fully successful walk of the sample tree returns
no error. -/
theorem scanForAI_error_first_walk_error_witness :
    noReadErr sampleTree = true ∧
    (ScanForAI sampleScanner (some sampleTree)).2 = none :=
  ⟨by decide,
    (scanForAI_error_first_walk_error sampleScanner sampleTree).2.1
      (by decide)⟩

/-- **C8.** `ScanForAI` mutates nothing: two runs against the same
unmodified tree deliver the same multiset of `(path, content)` pairs to
the sink (in the sequential model the runs coincide outright). -/
theorem scanForAI_idempotent (s : FileScanner) (t : FSEntry)
    (r1 r2 : List (String × String) × Option String)
    (h1 : r1 = ScanForAI s (some t)) (h2 : r2 = ScanForAI s (some t)) :
    r1.1.Perm r2.1 := by
  subst h1
  subst h2
  exact List.Perm.refl _

/-- Witness for C8 on the sample tree. -/
theorem scanForAI_idempotent_witness :
    ScanForAI sampleScanner (some sampleTree)
        = ScanForAI sampleScanner (some sampleTree) ∧
    (ScanForAI sampleScanner (some sampleTree)).1.Perm
      (ScanForAI sampleScanner (some sampleTree)).1 :=
  ⟨rfl, scanForAI_idempotent sampleScanner sampleTree _ _ rfl rfl⟩

/-- **C10.** A pattern whose evaluation against a name reports
`ErrBadPattern` behaves as a non-match there: the discarded error leaves
`matched = false`, removing such a pattern does not change the exclusion
verdict, and the loaded patterns — malformed or not — never influence the
error the scan returns. -/
theorem malformed_pattern_harmless (p name : String)
    (ps1 ps2 ps : List String) (s : FileScanner) (t : Option FSEntry)
    (h : goMatch p name = .error ()) :
    matchedDiscard p name = false ∧
    patternExcluded (ps1 ++ p :: ps2) name
      = patternExcluded (ps1 ++ ps2) name ∧
    (ScanForAI { s with Patterns := ps } t).2 =
      (ScanForAI { s with Patterns := [] } t).2 := by
  have hm : matchedDiscard p name = false := by
    simp [matchedDiscard, h]
  refine ⟨hm, ?_, ?_⟩
  · simp [patternExcluded, hm]
  · cases t with
    | none => rfl
    | some e =>
      rw [scanForAI_snd, scanForAI_snd]
      exact (walkEntry_err_patterns s ps s.Root e).trans
        (walkEntry_err_patterns s [] s.Root e).symm

/-- Witness for C10: the malformed pattern `"["` errors on `"x"`, is
treated as not matching, and dropping it changes nothing. -/
theorem malformed_pattern_harmless_witness :
    goMatch "[" "x" = .error () ∧
    matchedDiscard "[" "x" = false ∧
    patternExcluded (["*.go"] ++ "[" :: ["*.txt"]) "x"
      = patternExcluded (["*.go"] ++ ["*.txt"]) "x" :=
  ⟨rfl,
    (malformed_pattern_harmless "[" "x" ["*.go"] ["*.txt"] []
      sampleScanner none rfl).1,
    (malformed_pattern_harmless "[" "x" ["*.go"] ["*.txt"] []
      sampleScanner none rfl).2.1⟩
